import Mathlib

/-!
Shallow embedding of `serde_scala` (`src/lib.rs`): the `Pitch` and `Scale`
data model, their `FromStr` parsers, their `Display` formatters, and the
cents conversions.

Modelling conventions:
* Rust `u128`/`usize` values are `ℕ` with explicit range checks (`< 2^128`,
  `< 2^64`) exactly where the Rust integer parsers check for overflow.
* Rust `f64` is modelled as `ℚ` with exact arithmetic: `str::parse::<f64>`
  is an exact-valued parser over Rust's decimal float grammar (the `inf`/
  `NaN` spellings, which cannot occur in the decimal-point branch of pitch
  parsing, are omitted), and `{:.5}` formatting rounds to five fractional
  digits.  `f64::log2` is modelled over `ℝ` as `Real.logb 2`.
* A Rust function that can panic (`Ratio::new` from `num_rational` panics
  when the denominator is zero, and the `unwrap` in the fraction branch)
  is modelled with an explicit `panic` outcome in `RResult`, distinct from
  returning an `Err` to the caller.
* Rust `String`s are handled as `List Char`; `String.toList` is applied at
  the API boundary.
-/

namespace SerdeScala

/-- Outcome of a Rust computation: a returned value, a returned error, or a
panic (unwinding that never returns to the caller). -/
inductive RResult (ε α : Type) : Type where
  | ok (a : α) : RResult ε α
  | err (e : ε) : RResult ε α
  | panic : RResult ε α
deriving DecidableEq

/-- ASCII decimal digit test, as used by Rust's integer `from_str`
(`char::to_digit(10)` accepts exactly `'0'..='9'`). -/
def isDigitC (c : Char) : Bool :=
  decide (48 ≤ c.toNat ∧ c.toNat ≤ 57)

/-- Numeric value of an ASCII digit. -/
def digitVal (c : Char) : ℕ := c.toNat - 48

/-- Value of a big-endian list of decimal digits (the accumulation loop of
Rust's `from_str_radix` with radix 10). -/
def digitsToNat (s : List Char) : ℕ :=
  s.foldl (fun a c => a * 10 + digitVal c) 0

/-- Strip one optional leading `'+'`, as Rust's unsigned `from_str` does.
(A leading `'-'` is left in place; it then fails the digit test, matching
Rust's error on negative text for unsigned types.) -/
def stripPlus : List Char → List Char
  | [] => []
  | c :: r => if c = '+' then r else c :: r

/-- Rust's `from_str` for an unsigned integer type with upper bound
`bound`: optional `'+'`, then one or more ASCII digits, with an overflow
check.  Returns `none` on empty input, a non-digit, or overflow. -/
def parseNatB (bound : ℕ) (s : List Char) : Option ℕ :=
  let t := stripPlus s
  if t = [] then none
  else if t.all isDigitC then
    let v := digitsToNat t
    if v < bound then some v else none
  else none

/-- `str::parse::<u128>`. -/
def parseU128 (s : List Char) : Option ℕ := parseNatB (2 ^ 128) s

/-- `str::parse::<usize>` (64-bit target). -/
def parseUsize (s : List Char) : Option ℕ := parseNatB (2 ^ 64) s

/-- The ASCII digit character for a value `d < 10`. -/
def digitChar (d : ℕ) : Char := Char.ofNat (48 + d)

/-- Decimal representation of a natural number (fuel-indexed helper, so
that it is structurally recursive and kernel-reducible). -/
def natReprAux : ℕ → ℕ → List Char
  | 0, _ => []
  | fuel + 1, n =>
    if n < 10 then [digitChar n]
    else natReprAux fuel (n / 10) ++ [digitChar (n % 10)]

/-- Decimal representation of a natural number, as produced by Rust's
`Display` for unsigned integers: no sign, no leading zeros. -/
def natReprL (n : ℕ) : List Char := natReprAux (n + 1) n

/-- `natReprL`, packaged as a `String`. -/
def natRepr (n : ℕ) : String := String.mk (natReprL n)

/-- Rust `char::is_whitespace`: the Unicode `White_Space` property. -/
def isRustWhitespace (c : Char) : Bool :=
  decide ((9 ≤ c.toNat ∧ c.toNat ≤ 13) ∨ c.toNat = 32 ∨ c.toNat = 133 ∨
    c.toNat = 160 ∨ c.toNat = 5760 ∨ (8192 ≤ c.toNat ∧ c.toNat ≤ 8202) ∨
    c.toNat = 8232 ∨ c.toNat = 8233 ∨ c.toNat = 8239 ∨ c.toNat = 8287 ∨
    c.toNat = 12288)

/-- `s.replace(" ", "")`: removes every space character (the pattern is a
single character, so the replacement is exactly a filter). -/
def removeSpaces (s : List Char) : List Char :=
  s.filter (fun c => !(c == ' '))

/-- `s.contains(pat)` for a single-character pattern. -/
def containsC (s : List Char) (c : Char) : Bool :=
  s.any (fun x => x == c)

/-- `s.split_once(pat)` for a single-character pattern: split at the first
occurrence, the separator belonging to neither side. -/
def splitOnceC (c : Char) : List Char → Option (List Char × List Char)
  | [] => none
  | x :: r =>
    if x = c then some ([], r)
    else (splitOnceC c r).map (fun p => (x :: p.1, p.2))

/-- `s.replace("cents", "")`: removes the non-overlapping occurrences of
the substring `cents`, scanning left to right without rescanning the text
produced by a removal (Rust's `str::replace` semantics). -/
def stripCents : List Char → List Char
  | 'c' :: 'e' :: 'n' :: 't' :: 's' :: rest => stripCents rest
  | c :: rest => c :: stripCents rest
  | [] => []

/-- Leading sign of a float literal: strips one `'-'` (negative) or one
`'+'` (positive); no sign means positive. -/
def parseF64Sign : List Char → Bool × List Char
  | [] => (false, [])
  | c :: r =>
    if c = '-' then (true, r)
    else if c = '+' then (false, r)
    else (false, c :: r)

/-- Longest ASCII-digit prefix. -/
def takeDigits (s : List Char) : List Char := s.takeWhile isDigitC

/-- Remainder after the longest ASCII-digit prefix. -/
def dropDigits (s : List Char) : List Char := s.dropWhile isDigitC

/-- Optional exponent part of Rust's float grammar: either the end of the
token (value unchanged) or `e`/`E`, an optional sign, and one or more
digits; anything else is a parse error. -/
def parseExp (mant : ℚ) : List Char → Option ℚ
  | [] => some mant
  | c :: r =>
    if c = 'e' ∨ c = 'E' then
      let sg := parseF64Sign r
      let d3 := takeDigits sg.2
      if d3 = [] then none
      else if dropDigits sg.2 ≠ [] then none
      else if sg.1 then some (mant / 10 ^ digitsToNat d3)
      else some (mant * 10 ^ digitsToNat d3)
    else none

/-- The sign-stripped part of `str::parse::<f64>` over Rust's decimal
grammar `(digits+ | digits+ '.' digits* | digits* '.' digits+) [exp]`,
with the value computed exactly in `ℚ`.  The `inf`/`infinity`/`NaN`
spellings are not modelled (no rational value; unreachable through the
decimal-point branch of pitch parsing). -/
def parseF64Body (neg : Bool) (t : List Char) : Option ℚ :=
  let d1 := takeDigits t
  let r1 := dropDigits t
  let fr : List Char × List Char :=
    match r1 with
    | '.' :: u => (takeDigits u, dropDigits u)
    | _ => ([], r1)
  if d1 = [] ∧ fr.1 = [] then none
  else
    let mant : ℚ := (digitsToNat d1 : ℚ) + (digitsToNat fr.1 : ℚ) / 10 ^ fr.1.length
    (parseExp mant fr.2).map (fun q => if neg then -q else q)

/-- `str::parse::<f64>`: the sign, then the signless body. -/
def parseF64 (s : List Char) : Option ℚ :=
  parseF64Body (parseF64Sign s).1 (parseF64Sign s).2

/-- Rounding used by `{:.5}` formatting: the integer of fractional-scale
`10^5` nearest to `x` (for nonnegative `x`; ties go up — tie direction is
immaterial to every stated property). -/
def round5 (x : ℚ) : ℕ := (⌊x * 100000 + 1 / 2⌋).toNat

/-- Left-pad a digit string with `'0'` to width 5. -/
def pad5 (l : List Char) : List Char :=
  List.replicate (5 - l.length) '0' ++ l

/-- Rust `{:.5}` formatting of a float, modelled on `ℚ`: optional `'-'`,
the integer part in decimal, `'.'`, then exactly five fractional digits. -/
def fmtFixed5 (q : ℚ) : List Char :=
  (if q < 0 then ['-'] else []) ++
    natReprL (round5 |q| / 100000) ++ '.' :: pad5 (natReprL (round5 |q| % 100000))

/-- `num_rational::Ratio<u128>`: a numerator/denominator pair. -/
structure RatioU128 : Type where
  numer : ℕ
  denom : ℕ
deriving DecidableEq

/-- `Ratio::new(numer, denom)`: reduces the fraction by the gcd at
construction; panics (`none`) when the denominator is zero. -/
def RatioU128.new (n d : ℕ) : Option RatioU128 :=
  if d = 0 then none
  else some ⟨n / Nat.gcd n d, d / Nat.gcd n d⟩

/-- The `Pitch` enum: a cents offset or an exact frequency ratio. -/
inductive Pitch : Type where
  | Cents (cents : ℚ) : Pitch
  | Ratio (ratio : RatioU128) : Pitch
deriving DecidableEq

/-- The `ParsePitchError` enum (the wrapped std error values carry no
information used by the library, so the variants are bare). -/
inductive ParsePitchError : Type where
  | ParseFloat : ParsePitchError
  | ParseInt : ParsePitchError
deriving DecidableEq

/-- `<Pitch as FromStr>::from_str` on the character list: remove all
spaces; a token with a `'.'` is a cents value (after `cents`-suffix
stripping), else a token with a `'/'` is a fraction (both halves `u128`),
else a bare `u128` over denominator 1.  `Ratio::new` with a parsed zero
denominator panics. -/
def pitchFromChars (s : List Char) : RResult ParsePitchError Pitch :=
  let t := removeSpaces s
  if containsC t '.' then
    match parseF64 (stripCents t) with
    | some v => .ok (.Cents v)
    | none => .err .ParseFloat
  else if containsC t '/' then
    match splitOnceC '/' t with
    | some nd =>
      match parseU128 nd.1 with
      | none => .err .ParseInt
      | some n =>
        match parseU128 nd.2 with
        | none => .err .ParseInt
        | some d =>
          match RatioU128.new n d with
          | some r => .ok (.Ratio r)
          | none => .panic
    | none => .panic
  else
    match parseU128 t with
    | none => .err .ParseInt
    | some n =>
      match RatioU128.new n 1 with
      | some r => .ok (.Ratio r)
      | none => .panic

/-- `<Pitch as FromStr>::from_str`. -/
def Pitch.from_str (s : String) : RResult ParsePitchError Pitch :=
  pitchFromChars s.toList

/-- `<Pitch as Display>::fmt`: `Cents` with `{:.5}`, `Ratio` as
`{numer}/{denom}` from the stored fields. -/
def Pitch.fmt : Pitch → List Char
  | .Cents c => fmtFixed5 c
  | .Ratio r => natReprL r.numer ++ '/' :: natReprL r.denom

/-- `Pitch`'s `Display` output as a `String`. -/
def Pitch.fmtStr (p : Pitch) : String := String.mk p.fmt

/-- `Pitch::to_cents`: the cents value unchanged, or `log2(n/d) * 1200`
(the `f64` computation modelled over `ℝ`). -/
noncomputable def Pitch.to_cents : Pitch → ℝ
  | .Cents c => (c : ℝ)
  | .Ratio r => Real.logb 2 ((r.numer : ℝ) / (r.denom : ℝ)) * 1200

/-- `Pitch::to_note_offset`: cents over 100, or `log2(n/d) * 12`. -/
noncomputable def Pitch.to_note_offset : Pitch → ℝ
  | .Cents c => (c : ℝ) / 100
  | .Ratio r => Real.logb 2 ((r.numer : ℝ) / (r.denom : ℝ)) * 12

/-- The `ParseScaleError` enum. -/
inductive ParseScaleError : Type where
  | ParseFloat : ParseScaleError
  | ParseInt : ParseScaleError
  | MissingDescription : ParseScaleError
  | MissingNoteCount : ParseScaleError
  | WrongPitchCount (actual : ℕ) : ParseScaleError
deriving DecidableEq

/-- `From<ParsePitchError> for ParseScaleError`. -/
def pitchErrToScale : ParsePitchError → ParseScaleError
  | .ParseFloat => .ParseFloat
  | .ParseInt => .ParseInt

/-- Strip one trailing `'\r'` (the `\r\n` line-terminator case of
`str::lines`). -/
def stripCr (s : List Char) : List Char :=
  match s.getLast? with
  | some c => if c = '\r' then s.dropLast else s
  | none => s

/-- Accumulating worker for `str::lines`: `acc` holds the current line in
reverse.  A segment ended by `'\n'` has the `'\n'` and one optional
preceding `'\r'` removed; a nonempty final segment without `'\n'` is kept
as-is. -/
def rustLinesAux : List Char → List Char → List (List Char)
  | acc, [] => if acc = [] then [] else [acc.reverse]
  | acc, c :: rest =>
    if c = '\n' then stripCr acc.reverse :: rustLinesAux [] rest
    else rustLinesAux (c :: acc) rest

/-- `str::lines`. -/
def rustLines (s : List Char) : List (List Char) := rustLinesAux [] s

/-- One scale-parser line after comment truncation:
`s.split_once("!").map(|(s, _)| s).unwrap_or(s)`. -/
def decomment (s : List Char) : List Char :=
  match splitOnceC '!' s with
  | some p => p.1
  | none => s

/-- `s.chars().filter(|c| !c.is_whitespace()).collect()`. -/
def wsRemoveAll (s : List Char) : List Char :=
  s.filter (fun c => !(isRustWhitespace c))

/-- The `Scale` struct: a name and an ordered pitch list. -/
structure Scale : Type where
  name : List Char
  pitches : List Pitch
deriving DecidableEq

/-- The local parsing state of `<Scale as FromStr>::from_str`: the three
mutable locals `name`, `pitch_count`, `pitches`. -/
structure ScaleSt : Type where
  name : Option (List Char)
  pitch_count : Option ℕ
  pitches : List Pitch
deriving DecidableEq

/-- One iteration of the scale parser's line loop. -/
def scaleStep (st : ScaleSt) (line : List Char) : RResult ParseScaleError ScaleSt :=
  let s := decomment line
  if s = [] then .ok st
  else if st.name = none then .ok { st with name := some s }
  else
    let t := wsRemoveAll s
    if st.pitch_count = none then
      match parseUsize t with
      | some k => .ok { st with pitch_count := some k }
      | none => .err .ParseInt
    else
      match pitchFromChars t with
      | .ok p => .ok { st with pitches := st.pitches ++ [p] }
      | .err e => .err (pitchErrToScale e)
      | .panic => .panic

/-- The scale parser's line loop, with the early return of `?` on a line
error and panic propagation. -/
def scaleLoop : ScaleSt → List (List Char) → RResult ParseScaleError ScaleSt
  | st, [] => .ok st
  | st, l :: ls =>
    match scaleStep st l with
    | .ok st2 => scaleLoop st2 ls
    | .err e => .err e
    | .panic => .panic

/-- `<Scale as FromStr>::from_str` on the character list: run the line
loop, then the end-of-input checks in source order (`MissingDescription`,
`MissingNoteCount`, `WrongPitchCount`). -/
def scaleFromChars (s : List Char) : RResult ParseScaleError Scale :=
  match scaleLoop ⟨none, none, []⟩ (rustLines s) with
  | .err e => .err e
  | .panic => .panic
  | .ok st =>
    match st.name with
    | none => .err .MissingDescription
    | some name =>
      match st.pitch_count with
      | none => .err .MissingNoteCount
      | some k =>
        if st.pitches.length ≠ k then .err (.WrongPitchCount st.pitches.length)
        else .ok ⟨name, st.pitches⟩

/-- `<Scale as FromStr>::from_str`. -/
def Scale.from_str (s : String) : RResult ParseScaleError Scale :=
  scaleFromChars s.toList

/-- The non-skip part of `scaleStep`, applied to an already de-commented,
nonempty line (analysis helper: `scaleStep` equals a skip test followed by
this). -/
def scaleStepNE (st : ScaleSt) (s : List Char) : RResult ParseScaleError ScaleSt :=
  if st.name = none then .ok { st with name := some s }
  else
    let t := wsRemoveAll s
    if st.pitch_count = none then
      match parseUsize t with
      | some k => .ok { st with pitch_count := some k }
      | none => .err .ParseInt
    else
      match pitchFromChars t with
      | .ok p => .ok { st with pitches := st.pitches ++ [p] }
      | .err e => .err (pitchErrToScale e)
      | .panic => .panic

/-- The scale parser's loop restricted to the surviving (de-commented,
nonempty) lines (analysis helper). -/
def scaleLoopNE : ScaleSt → List (List Char) → RResult ParseScaleError ScaleSt
  | st, [] => .ok st
  | st, l :: ls =>
    match scaleStepNE st l with
    | .ok st2 => scaleLoopNE st2 ls
    | .err e => .err e
    | .panic => .panic

/-- The fixed leading comment line of `<Scale as Display>::fmt`. -/
def scaleHeader : List Char := "! Generated scale:".toList

/-- The pitch block of `<Scale as Display>::fmt`: one `writeln!` per
pitch. -/
def pitchLinesFmt : List Pitch → List Char
  | [] => []
  | p :: ps => Pitch.fmt p ++ '\n' :: pitchLinesFmt ps

/-- `<Scale as Display>::fmt`: header comment line, name line, pitch-count
line, a bare `!` line, then the pitch lines; every line `'\n'`-terminated. -/
def Scale.fmtChars (sc : Scale) : List Char :=
  scaleHeader ++ '\n' :: (sc.name ++ '\n' ::
    (natReprL sc.pitches.length ++ '\n' :: '!' :: '\n' :: pitchLinesFmt sc.pitches))

/-- `Scale`'s `Display` output as a `String`. -/
def Scale.fmt (sc : Scale) : String := String.mk sc.fmtChars

/-- The de-commented, nonempty-filtered line sequence of an input: the
lines that carry data in the scale parser. -/
def filteredLines (s : String) : List (List Char) :=
  ((rustLines s.toList).map decomment).filter (fun l => !l.isEmpty)

/-- Parse a list of (already de-commented, whitespace-stripped) pitch
tokens in order, stopping at the first error or panic. -/
def pitchListParse : List (List Char) → RResult ParseScaleError (List Pitch)
  | [] => .ok []
  | l :: ls =>
    match pitchFromChars l with
    | .ok p =>
      match pitchListParse ls with
      | .ok ps => .ok (p :: ps)
      | .err e => .err e
      | .panic => .panic
    | .err e => .err (pitchErrToScale e)
    | .panic => .panic

/-- Scale parsing as the specification describes it (§4.2): truncate each
line at `!` and drop empty results; the first surviving line is the name
verbatim, the second (whitespace removed) the declared count, the rest
(whitespace removed) the pitches in order; then the end-of-input checks.
Stated from the spec's words for comparison with `Scale.from_str`. -/
def specScaleParse (s : String) : RResult ParseScaleError Scale :=
  match filteredLines s with
  | [] => .err .MissingDescription
  | [_] => .err .MissingNoteCount
  | n :: c :: ps =>
    match parseUsize (wsRemoveAll c) with
    | none => .err .ParseInt
    | some k =>
      match pitchListParse (ps.map wsRemoveAll) with
      | .ok pitches =>
        if pitches.length ≠ k then .err (.WrongPitchCount pitches.length)
        else .ok ⟨n, pitches⟩
      | .err e => .err e
      | .panic => .panic

/-- The exact value stored for a cents pitch after one format/parse
round-trip: its 5-fractional-digit rounding. -/
def centsRound (q : ℚ) : ℚ :=
  (if q < 0 then -1 else 1) * (round5 |q| : ℚ) / 100000

/-- Well-formedness of a stored pitch under the Rust types: a ratio's
`u128` fields are in range and its denominator is nonzero (the data-model
invariant). -/
def PitchOk : Pitch → Prop
  | .Cents _ => True
  | .Ratio r => 0 < r.denom ∧ r.numer < 2 ^ 128 ∧ r.denom < 2 ^ 128

/-- Numerical equivalence of an original and a reparsed pitch: cents agree
to 5-decimal precision, ratios are equal as rational numbers. -/
def PitchEqv : Pitch → Pitch → Prop
  | .Cents c, .Cents c2 => |c2 - c| ≤ 1 / 100000
  | .Ratio r, .Ratio r2 => (r.numer : ℚ) * (r2.denom : ℚ) = (r2.numer : ℚ) * (r.denom : ℚ)
  | _, _ => False

/-- The pitch stored after one format/parse round-trip (analysis helper):
a cents value is replaced by its 5-fractional-digit rounding, a ratio by
its gcd-reduced form. -/
def reparsePitch : Pitch → Pitch
  | .Cents q => .Cents (centsRound q)
  | .Ratio r =>
    .Ratio ⟨r.numer / Nat.gcd r.numer r.denom, r.denom / Nat.gcd r.numer r.denom⟩

instance : DecidablePred PitchOk := fun p =>
  match p with
  | .Cents _ => .isTrue trivial
  | .Ratio r =>
    inferInstanceAs (Decidable (0 < r.denom ∧ r.numer < 2 ^ 128 ∧ r.denom < 2 ^ 128))

/-- The pitch-token shape that drives `Ratio::new` to a zero denominator:
no decimal point, a fraction split whose numerator half parses and whose
denominator half parses to `0`. -/
def zeroDenomToken (s : String) : Prop :=
  containsC (removeSpaces s.toList) '.' = false ∧
    ∃ a b, splitOnceC '/' (removeSpaces s.toList) = some (a, b) ∧
      (parseU128 a).isSome = true ∧ parseU128 b = some 0

/-! ### Digit and decimal-representation lemmas -/

theorem digitChar_toNat {d : ℕ} (h : d < 10) : (digitChar d).toNat = 48 + d := by
  interval_cases d <;> decide

theorem isDigitC_digitChar {d : ℕ} (h : d < 10) : isDigitC (digitChar d) = true := by
  interval_cases d <;> decide

theorem digitVal_digitChar {d : ℕ} (h : d < 10) : digitVal (digitChar d) = d := by
  interval_cases d <;> decide

theorem isDigitC_toNat {c : Char} (h : isDigitC c = true) :
    48 ≤ c.toNat ∧ c.toNat ≤ 57 := by
  simpa [isDigitC] using h

theorem digit_ne {c x : Char} (h : isDigitC c = true)
    (hx : x.toNat < 48 ∨ 57 < x.toNat) : c ≠ x := by
  intro he
  subst he
  rcases isDigitC_toNat h with ⟨h1, h2⟩
  omega

theorem digit_ne_dot {c : Char} (h : isDigitC c = true) : c ≠ '.' :=
  digit_ne h (by decide)

theorem digit_ne_slash {c : Char} (h : isDigitC c = true) : c ≠ '/' :=
  digit_ne h (by decide)

theorem digit_ne_bang {c : Char} (h : isDigitC c = true) : c ≠ '!' :=
  digit_ne h (by decide)

theorem digit_ne_nl {c : Char} (h : isDigitC c = true) : c ≠ '\n' :=
  digit_ne h (by decide)

theorem digit_ne_cr {c : Char} (h : isDigitC c = true) : c ≠ '\r' :=
  digit_ne h (by decide)

theorem digit_ne_space {c : Char} (h : isDigitC c = true) : c ≠ ' ' :=
  digit_ne h (by decide)

theorem digit_ne_plus {c : Char} (h : isDigitC c = true) : c ≠ '+' :=
  digit_ne h (by decide)

theorem digit_ne_minus {c : Char} (h : isDigitC c = true) : c ≠ '-' :=
  digit_ne h (by decide)

theorem digit_ne_c {c : Char} (h : isDigitC c = true) : c ≠ 'c' :=
  digit_ne h (by decide)

theorem digit_not_ws {c : Char} (h : isDigitC c = true) :
    isRustWhitespace c = false := by
  rcases isDigitC_toNat h with ⟨h1, h2⟩
  simp only [isRustWhitespace, decide_eq_false_iff_not]
  omega

theorem natReprAux_digits {fuel n : ℕ} (h : n < fuel) :
    ∀ c ∈ natReprAux fuel n, isDigitC c = true := by
  induction fuel generalizing n with
  | zero => omega
  | succ fuel ih =>
    intro c hc
    rw [natReprAux] at hc
    by_cases h10 : n < 10
    · rw [if_pos h10] at hc
      simp only [List.mem_singleton] at hc
      subst hc
      exact isDigitC_digitChar h10
    · rw [if_neg h10] at hc
      rcases List.mem_append.mp hc with h1 | h2
      · exact ih (by omega) c h1
      · simp only [List.mem_singleton] at h2
        subst h2
        exact isDigitC_digitChar (Nat.mod_lt n (by omega))

theorem natReprL_digits (n : ℕ) : ∀ c ∈ natReprL n, isDigitC c = true :=
  natReprAux_digits (Nat.lt_succ_self n)

theorem natReprAux_ne_nil {fuel n : ℕ} (h : n < fuel) : natReprAux fuel n ≠ [] := by
  cases fuel with
  | zero => omega
  | succ fuel =>
    rw [natReprAux]
    by_cases h10 : n < 10
    · simp [h10]
    · simp [h10]

theorem natReprL_ne_nil (n : ℕ) : natReprL n ≠ [] :=
  natReprAux_ne_nil (Nat.lt_succ_self n)

theorem digitsToNat_concat (l : List Char) (c : Char) :
    digitsToNat (l ++ [c]) = digitsToNat l * 10 + digitVal c := by
  simp [digitsToNat, List.foldl_append]

theorem digitsToNat_natReprAux {fuel n : ℕ} (h : n < fuel) :
    digitsToNat (natReprAux fuel n) = n := by
  induction fuel generalizing n with
  | zero => omega
  | succ fuel ih =>
    rw [natReprAux]
    by_cases h10 : n < 10
    · rw [if_pos h10]
      simp [digitsToNat, digitVal_digitChar h10]
    · rw [if_neg h10]
      rw [digitsToNat_concat, ih (by omega), digitVal_digitChar (Nat.mod_lt n (by omega))]
      omega

theorem digitsToNat_natReprL (n : ℕ) : digitsToNat (natReprL n) = n :=
  digitsToNat_natReprAux (Nat.lt_succ_self n)

theorem stripPlus_of_digits {l : List Char} (h : ∀ c ∈ l, isDigitC c = true) :
    stripPlus l = l := by
  cases l with
  | nil => rfl
  | cons c r =>
    rw [stripPlus, if_neg (digit_ne_plus (h c (by simp)))]

theorem parseNatB_natReprL {b n : ℕ} (h : n < b) :
    parseNatB b (natReprL n) = some n := by
  rw [parseNatB]
  rw [stripPlus_of_digits (natReprL_digits n)]
  rw [if_neg (natReprL_ne_nil n)]
  rw [if_pos (List.all_eq_true.mpr (natReprL_digits n))]
  simp only [digitsToNat_natReprL]
  rw [if_pos h]

theorem parseU128_natReprL {n : ℕ} (h : n < 2 ^ 128) :
    parseU128 (natReprL n) = some n := parseNatB_natReprL h

theorem parseUsize_natReprL {n : ℕ} (h : n < 2 ^ 64) :
    parseUsize (natReprL n) = some n := parseNatB_natReprL h

theorem natReprAux_length {fuel n k : ℕ} (hf : n < fuel) (hk : 1 ≤ k)
    (h : n < 10 ^ k) : (natReprAux fuel n).length ≤ k := by
  induction fuel generalizing n k with
  | zero => omega
  | succ fuel ih =>
    rw [natReprAux]
    by_cases h10 : n < 10
    · rw [if_pos h10]
      simpa using hk
    · rw [if_neg h10]
      rw [List.length_append]
      have hk2 : 2 ≤ k := by
        by_contra hlt
        have : k = 1 := by omega
        subst this
        simp at h
        omega
      have hdiv : n / 10 < 10 ^ (k - 1) := by
        have h1 : n < 10 ^ k := h
        have h2 : 10 ^ k = 10 ^ (k - 1) * 10 := by
          rw [← pow_succ]
          congr 1
          omega
        rw [h2] at h1
        exact Nat.div_lt_of_lt_mul (by omega)
      have := ih (n := n / 10) (k := k - 1) (by omega) (by omega) hdiv
      simp only [List.length_singleton]
      omega

theorem natReprL_length {n k : ℕ} (hk : 1 ≤ k) (h : n < 10 ^ k) :
    (natReprL n).length ≤ k :=
  natReprAux_length (Nat.lt_succ_self n) hk h

theorem natReprAux_head {fuel n : ℕ} (hf : n < fuel) (hn : n ≠ 0) :
    (natReprAux fuel n).head? ≠ some '0' := by
  induction fuel generalizing n with
  | zero => omega
  | succ fuel ih =>
    rw [natReprAux]
    by_cases h10 : n < 10
    · rw [if_pos h10]
      intro hc
      simp only [List.head?_cons, Option.some_inj] at hc
      have : (digitChar n).toNat = ('0' : Char).toNat := by rw [hc]
      rw [digitChar_toNat h10] at this
      have : n = 0 := by
        have h0 : ('0' : Char).toNat = 48 := by decide
        omega
      exact hn this
    · rw [if_neg h10]
      have hne := natReprAux_ne_nil (show n / 10 < fuel by omega)
      cases hh : natReprAux fuel (n / 10) with
      | nil => exact absurd hh hne
      | cons x xs =>
        have := ih (n := n / 10) (by omega) (by omega)
        rw [hh] at this
        simpa using this

theorem natReprL_head {n : ℕ} (hn : n ≠ 0) : (natReprL n).head? ≠ some '0' :=
  natReprAux_head (Nat.lt_succ_self n) hn

/-! ### List-scanning lemmas -/

theorem takeWhile_all {p : Char → Bool} : ∀ {l : List Char},
    (∀ c ∈ l, p c = true) → l.takeWhile p = l
  | [], _ => rfl
  | c :: r, h => by
    rw [List.takeWhile_cons, if_pos (h c (by simp))]
    rw [takeWhile_all (fun x hx => h x (by simp [hx]))]

theorem dropWhile_all {p : Char → Bool} : ∀ {l : List Char},
    (∀ c ∈ l, p c = true) → l.dropWhile p = []
  | [], _ => rfl
  | c :: r, h => by
    rw [List.dropWhile_cons, if_pos (h c (by simp))]
    exact dropWhile_all (fun x hx => h x (by simp [hx]))

theorem takeWhile_append_stop {p : Char → Bool} {l : List Char} {x : Char}
    (hl : ∀ c ∈ l, p c = true) (hx : p x = false) (r : List Char) :
    (l ++ x :: r).takeWhile p = l := by
  induction l with
  | nil => simp [List.takeWhile_cons, hx]
  | cons c t ih =>
    rw [List.cons_append, List.takeWhile_cons, if_pos (hl c (by simp))]
    rw [ih (fun y hy => hl y (by simp [hy]))]

theorem dropWhile_append_stop {p : Char → Bool} {l : List Char} {x : Char}
    (hl : ∀ c ∈ l, p c = true) (hx : p x = false) (r : List Char) :
    (l ++ x :: r).dropWhile p = x :: r := by
  induction l with
  | nil => simp [List.dropWhile_cons, hx]
  | cons c t ih =>
    rw [List.cons_append, List.dropWhile_cons, if_pos (hl c (by simp))]
    exact ih (fun y hy => hl y (by simp [hy]))

theorem containsC_eq_true {l : List Char} {c : Char} :
    containsC l c = true ↔ c ∈ l := by
  simp only [containsC, List.any_eq_true, beq_iff_eq]
  constructor
  · rintro ⟨x, hx, rfl⟩
    exact hx
  · intro h
    exact ⟨c, h, rfl⟩

theorem containsC_eq_false {l : List Char} {c : Char} :
    containsC l c = false ↔ c ∉ l := by
  rw [← Bool.not_eq_true, containsC_eq_true]

theorem splitOnceC_of_not_mem {c : Char} : ∀ {l : List Char},
    c ∉ l → splitOnceC c l = none
  | [], _ => rfl
  | x :: r, h => by
    rw [splitOnceC, if_neg (by intro he; exact h (by simp [he]))]
    rw [splitOnceC_of_not_mem (fun hm => h (by simp [hm]))]
    rfl

theorem splitOnceC_first {c : Char} {a : List Char} (ha : c ∉ a) (b : List Char) :
    splitOnceC c (a ++ c :: b) = some (a, b) := by
  induction a with
  | nil => simp [splitOnceC]
  | cons x t ih =>
    rw [List.cons_append, splitOnceC,
      if_neg (by intro he; exact ha (by simp [he]))]
    rw [ih (fun hm => ha (by simp [hm]))]
    rfl

theorem splitOnceC_isSome {c : Char} : ∀ {l : List Char},
    c ∈ l → ∃ p, splitOnceC c l = some p := by
  intro l hl
  induction l with
  | nil => simp at hl
  | cons x r ih =>
    rw [splitOnceC]
    by_cases hx : x = c
    · rw [if_pos hx]
      exact ⟨([], r), rfl⟩
    · rw [if_neg hx]
      have hr : c ∈ r := by
        rcases List.mem_cons.mp hl with h1 | h2
        · exact absurd h1.symm hx
        · exact h2
      rcases ih hr with ⟨p, hp⟩
      rw [hp]
      exact ⟨(x :: p.1, p.2), rfl⟩

theorem decomment_of_not_mem {l : List Char} (h : '!' ∉ l) : decomment l = l := by
  rw [decomment, splitOnceC_of_not_mem h]

theorem decomment_bang (r : List Char) : decomment ('!' :: r) = [] := by
  rw [decomment]
  rw [show ('!' :: r) = ([] ++ '!' :: r) from rfl, splitOnceC_first (by simp) r]

theorem removeSpaces_of_not_mem {l : List Char} (h : ' ' ∉ l) :
    removeSpaces l = l := by
  apply List.filter_eq_self.mpr
  intro a ha
  simp only [Bool.not_eq_true', beq_eq_false_iff_ne, ne_eq]
  intro he
  subst he
  exact h ha

theorem wsRemoveAll_of_none {l : List Char} (h : ∀ c ∈ l, isRustWhitespace c = false) :
    wsRemoveAll l = l := by
  apply List.filter_eq_self.mpr
  intro a ha
  simp [h a ha]

theorem stripCents_cons_ne {c : Char} (hc : c ≠ 'c') (r : List Char) :
    stripCents (c :: r) = c :: stripCents r := by
  rw [stripCents.eq_def]
  split
  · rename_i heq
    rw [List.cons.injEq] at heq
    exact absurd heq.1 hc
  · rename_i heq
    rw [List.cons.injEq] at heq
    rw [heq.1, heq.2]
  · rename_i heq
    exact absurd heq (by simp)

theorem stripCents_of_not_mem : ∀ {l : List Char}, 'c' ∉ l → stripCents l = l
  | [], _ => rfl
  | c :: r, h => by
    have hc : c ≠ 'c' := by intro he; exact h (by simp [he])
    rw [stripCents_cons_ne hc]
    rw [stripCents_of_not_mem (fun hm => h (by simp [hm]))]

theorem stripCr_of_not_mem {l : List Char} (h : '\r' ∉ l) : stripCr l = l := by
  rw [stripCr]
  cases hl : l.getLast? with
  | none => rfl
  | some c =>
    have hm : c ∈ l := List.mem_of_mem_getLast? hl
    show (if c = '\r' then l.dropLast else l) = l
    rw [if_neg (by intro he; rw [he] at hm; exact h hm)]

theorem rustLinesAux_line {a : List Char} (ha : '\n' ∉ a) :
    ∀ (acc rest : List Char),
      rustLinesAux acc (a ++ '\n' :: rest) =
        stripCr (acc.reverse ++ a) :: rustLinesAux [] rest := by
  induction a with
  | nil =>
    intro acc rest
    rw [List.nil_append, rustLinesAux, if_pos rfl, List.append_nil]
  | cons c t ih =>
    intro acc rest
    have hc : c ≠ '\n' := by intro he; exact ha (by simp [he])
    rw [List.cons_append, rustLinesAux, if_neg hc]
    rw [ih (fun hm => ha (by simp [hm])) (c :: acc) rest]
    simp [List.append_assoc]

theorem rustLines_line {a : List Char} (ha : '\n' ∉ a) (rest : List Char) :
    rustLines (a ++ '\n' :: rest) = stripCr a :: rustLines rest := by
  rw [rustLines, rustLinesAux_line ha [] rest, List.reverse_nil, List.nil_append]
  rfl

theorem rustLines_nil : rustLines [] = [] := rfl

/-! ### Float parsing and `{:.5}` formatting lemmas -/

theorem parseF64Sign_digit {c : Char} (h : isDigitC c = true) (r : List Char) :
    parseF64Sign (c :: r) = (false, c :: r) := by
  rw [parseF64Sign, if_neg (digit_ne_minus h), if_neg (digit_ne_plus h)]

theorem parseF64Sign_neg (r : List Char) : parseF64Sign ('-' :: r) = (true, r) := rfl

theorem isDigitC_dot : isDigitC '.' = false := by decide

theorem parseF64Body_digits_dot {a b : List Char} (ha : ∀ c ∈ a, isDigitC c = true)
    (ha0 : a ≠ []) (hb : ∀ c ∈ b, isDigitC c = true) (neg : Bool) :
    parseF64Body neg (a ++ '.' :: b) =
      some (if neg then -((digitsToNat a : ℚ) + (digitsToNat b : ℚ) / 10 ^ b.length)
            else (digitsToNat a : ℚ) + (digitsToNat b : ℚ) / 10 ^ b.length) := by
  rw [parseF64Body]
  simp only [takeDigits, dropDigits]
  rw [takeWhile_append_stop ha isDigitC_dot, dropWhile_append_stop ha isDigitC_dot]
  simp only [takeWhile_all hb, dropWhile_all hb]
  rw [if_neg (by intro hc; exact ha0 hc.1)]
  rw [parseExp]
  rfl

theorem pad5_length {l : List Char} (h : l.length ≤ 5) : (pad5 l).length = 5 := by
  rw [pad5, List.length_append, List.length_replicate]
  omega

theorem pad5_digits {l : List Char} (h : ∀ c ∈ l, isDigitC c = true) :
    ∀ c ∈ pad5 l, isDigitC c = true := by
  intro c hc
  rcases List.mem_append.mp hc with h1 | h2
  · rw [List.eq_of_mem_replicate h1]
    decide
  · exact h c h2

theorem foldl_digit_replicate_zero (k : ℕ) :
    List.foldl (fun a c => a * 10 + digitVal c) 0 (List.replicate k '0') = 0 := by
  induction k with
  | zero => rfl
  | succ k ih =>
    rw [List.replicate_succ, List.foldl_cons]
    simpa using ih

theorem digitsToNat_pad5 (l : List Char) : digitsToNat (pad5 l) = digitsToNat l := by
  rw [pad5, digitsToNat, List.foldl_append, foldl_digit_replicate_zero]
  rfl

theorem fmtFixed5_eq (q : ℚ) :
    fmtFixed5 q = (if q < 0 then ['-'] else []) ++
      natReprL (round5 |q| / 100000) ++ '.' ::
        pad5 (natReprL (round5 |q| % 100000)) := rfl

theorem fmtFixed5_mem {q : ℚ} :
    ∀ c ∈ fmtFixed5 q, c = '-' ∨ c = '.' ∨ isDigitC c = true := by
  intro c hc
  rw [fmtFixed5_eq, List.append_assoc] at hc
  rcases List.mem_append.mp hc with h1 | h2
  · left
    by_cases hq : q < 0
    · rw [if_pos hq] at h1
      simpa using h1
    · rw [if_neg hq] at h1
      simp at h1
  · rcases List.mem_append.mp h2 with h3 | h4
    · right; right
      exact natReprL_digits _ c h3
    · rcases List.mem_cons.mp h4 with h5 | h6
      · right; left; exact h5
      · right; right
        exact pad5_digits (natReprL_digits _) c h6

theorem dot_mem_fmtFixed5 (q : ℚ) : '.' ∈ fmtFixed5 q := by
  rw [fmtFixed5_eq, List.append_assoc]
  apply List.mem_append.mpr
  right
  apply List.mem_append.mpr
  right
  simp

theorem round5_natCast_bound {x : ℚ} (hx : 0 ≤ x) :
    |((round5 x : ℕ) : ℚ) - x * 100000| ≤ 1 / 2 := by
  rw [round5]
  have h0 : (0 : ℤ) ≤ ⌊x * 100000 + 1 / 2⌋ := by
    apply Int.floor_nonneg.mpr
    positivity
  have hcast : (((⌊x * 100000 + 1 / 2⌋).toNat : ℕ) : ℚ) = ((⌊x * 100000 + 1 / 2⌋ : ℤ) : ℚ) := by
    exact_mod_cast congrArg (fun z : ℤ => (z : ℚ)) (Int.toNat_of_nonneg h0)
  rw [hcast]
  have h1 : ((⌊x * 100000 + 1 / 2⌋ : ℤ) : ℚ) ≤ x * 100000 + 1 / 2 := Int.floor_le _
  have h2 : x * 100000 + 1 / 2 - 1 < ((⌊x * 100000 + 1 / 2⌋ : ℤ) : ℚ) :=
    Int.sub_one_lt_floor _
  rw [abs_le]
  constructor <;> linarith

theorem centsRound_close (q : ℚ) : |centsRound q - q| ≤ 1 / 100000 := by
  have hb := round5_natCast_bound (abs_nonneg q)
  rw [centsRound]
  by_cases hq : q < 0
  · rw [if_pos hq]
    rw [abs_of_neg hq] at hb ⊢
    have hkey : (-1 : ℚ) * (round5 (-q) : ℚ) / 100000 - q =
        -((((round5 (-q) : ℕ) : ℚ) - -q * 100000) / 100000) := by
      ring
    rw [hkey, abs_neg, abs_div]
    rw [abs_of_pos (show (0:ℚ) < 100000 by norm_num)]
    rw [div_le_div_iff₀ (by norm_num) (by norm_num)]
    calc |((round5 (-q) : ℕ) : ℚ) - -q * 100000| * 100000
        ≤ (1 / 2) * 100000 := by
          apply mul_le_mul_of_nonneg_right hb (by norm_num)
      _ ≤ 1 * 100000 := by norm_num
  · rw [if_neg hq]
    rw [abs_of_nonneg (not_lt.mp hq)] at hb ⊢
    have hkey : (1 : ℚ) * (round5 q : ℚ) / 100000 - q =
        (((round5 q : ℕ) : ℚ) - q * 100000) / 100000 := by
      ring
    rw [hkey, abs_div]
    rw [abs_of_pos (show (0:ℚ) < 100000 by norm_num)]
    rw [div_le_div_iff₀ (by norm_num) (by norm_num)]
    calc |((round5 q : ℕ) : ℚ) - q * 100000| * 100000
        ≤ (1 / 2) * 100000 := by
          apply mul_le_mul_of_nonneg_right hb (by norm_num)
      _ ≤ 1 * 100000 := by norm_num

theorem parseF64_digits_dot {a b : List Char} (ha : ∀ c ∈ a, isDigitC c = true)
    (ha0 : a ≠ []) (hb : ∀ c ∈ b, isDigitC c = true) :
    parseF64 (a ++ '.' :: b) =
      some ((digitsToNat a : ℚ) + (digitsToNat b : ℚ) / 10 ^ b.length) := by
  rcases a with _ | ⟨c, t⟩
  · exact absurd rfl ha0
  · have hc : isDigitC c = true := ha c (by simp)
    rw [parseF64, List.cons_append, parseF64Sign_digit hc]
    show parseF64Body false ((c :: t) ++ '.' :: b) = _
    rw [parseF64Body_digits_dot ha (by simp) hb]
    simp

theorem parseF64_neg_digits_dot {a b : List Char} (ha : ∀ c ∈ a, isDigitC c = true)
    (ha0 : a ≠ []) (hb : ∀ c ∈ b, isDigitC c = true) :
    parseF64 ('-' :: (a ++ '.' :: b)) =
      some (-((digitsToNat a : ℚ) + (digitsToNat b : ℚ) / 10 ^ b.length)) := by
  rw [parseF64]
  show parseF64Body true (a ++ '.' :: b) = _
  rw [parseF64Body_digits_dot ha ha0 hb]
  simp

theorem parseF64_fmtFixed5 (q : ℚ) : parseF64 (fmtFixed5 q) = some (centsRound q) := by
  have hA : ∀ c ∈ natReprL (round5 |q| / 100000), isDigitC c = true := natReprL_digits _
  have hA0 : natReprL (round5 |q| / 100000) ≠ [] := natReprL_ne_nil _
  have hB : ∀ c ∈ pad5 (natReprL (round5 |q| % 100000)), isDigitC c = true :=
    pad5_digits (natReprL_digits _)
  have hBlen : (pad5 (natReprL (round5 |q| % 100000))).length = 5 := by
    apply pad5_length
    apply natReprL_length (by norm_num)
    exact Nat.mod_lt _ (by norm_num)
  have hval : (digitsToNat (natReprL (round5 |q| / 100000)) : ℚ) +
      (digitsToNat (pad5 (natReprL (round5 |q| % 100000))) : ℚ) /
        10 ^ (pad5 (natReprL (round5 |q| % 100000))).length =
      ((round5 |q| : ℕ) : ℚ) / 100000 := by
    rw [hBlen, digitsToNat_pad5, digitsToNat_natReprL, digitsToNat_natReprL]
    have hm2 : round5 |q| / 100000 * 100000 + round5 |q| % 100000 = round5 |q| := by
      omega
    have hcast : ((round5 |q| / 100000 : ℕ) : ℚ) * 100000 +
        ((round5 |q| % 100000 : ℕ) : ℚ) = ((round5 |q| : ℕ) : ℚ) := by
      exact_mod_cast hm2
    have h5 : (10 : ℚ) ^ (5 : ℕ) = 100000 := by norm_num
    rw [h5]
    field_simp
    linarith [hcast]
  by_cases hq : q < 0
  · rw [fmtFixed5_eq, if_pos hq, List.singleton_append, List.cons_append]
    rw [parseF64_neg_digits_dot hA hA0 hB, hval]
    rw [centsRound, if_pos hq]
    congr 1
    ring
  · rw [fmtFixed5_eq, if_neg hq, List.nil_append]
    rw [parseF64_digits_dot hA hA0 hB, hval]
    rw [centsRound, if_neg hq]
    congr 1
    ring

/-! ### Pitch-parse composition lemmas -/

theorem pitchFromChars_fmt_cents (q : ℚ) :
    pitchFromChars (fmtFixed5 q) = .ok (.Cents (centsRound q)) := by
  have hsp : removeSpaces (fmtFixed5 q) = fmtFixed5 q := by
    apply removeSpaces_of_not_mem
    intro hmem
    rcases fmtFixed5_mem _ hmem with h | h | h
    · exact absurd h (by decide)
    · exact absurd h (by decide)
    · exact absurd h (by decide)
  have hc : 'c' ∉ fmtFixed5 q := by
    intro hmem
    rcases fmtFixed5_mem _ hmem with h | h | h
    · exact absurd h (by decide)
    · exact absurd h (by decide)
    · exact absurd h (by decide)
  simp only [pitchFromChars]
  rw [hsp, if_pos (containsC_eq_true.mpr (dot_mem_fmtFixed5 q))]
  rw [stripCents_of_not_mem hc, parseF64_fmtFixed5]

theorem ratio_text_mem {n d : ℕ} :
    ∀ c ∈ natReprL n ++ '/' :: natReprL d, c = '/' ∨ isDigitC c = true := by
  intro c hc
  rcases List.mem_append.mp hc with h1 | h2
  · right; exact natReprL_digits n c h1
  · rcases List.mem_cons.mp h2 with h3 | h4
    · left; exact h3
    · right; exact natReprL_digits d c h4

theorem pitchFromChars_ratio_text {n d : ℕ} (hd : d ≠ 0) (hn : n < 2 ^ 128)
    (hdlt : d < 2 ^ 128) :
    pitchFromChars (natReprL n ++ '/' :: natReprL d) =
      .ok (.Ratio ⟨n / Nat.gcd n d, d / Nat.gcd n d⟩) := by
  have hsp : removeSpaces (natReprL n ++ '/' :: natReprL d) =
      natReprL n ++ '/' :: natReprL d := by
    apply removeSpaces_of_not_mem
    intro hmem
    rcases ratio_text_mem _ hmem with h | h
    · exact absurd h (by decide)
    · exact absurd h (by decide)
  have hdot : ¬(containsC (natReprL n ++ '/' :: natReprL d) '.' = true) := by
    rw [containsC_eq_true]
    intro hmem
    rcases ratio_text_mem _ hmem with h | h
    · exact absurd h (by decide)
    · exact absurd h (by decide)
  have hslash : containsC (natReprL n ++ '/' :: natReprL d) '/' = true := by
    rw [containsC_eq_true]
    exact List.mem_append.mpr (Or.inr (by simp))
  have hnumer : '/' ∉ natReprL n := by
    intro hmem
    exact absurd rfl (digit_ne_slash (natReprL_digits n '/' hmem))
  simp only [pitchFromChars]
  rw [hsp, if_neg hdot, if_pos hslash, splitOnceC_first hnumer]
  simp only [parseU128_natReprL hn, parseU128_natReprL hdlt, RatioU128.new, if_neg hd]

theorem RatioU128.new_eq {n d : ℕ} (hd : d ≠ 0) :
    RatioU128.new n d = some ⟨n / Nat.gcd n d, d / Nat.gcd n d⟩ := by
  rw [RatioU128.new, if_neg hd]

theorem RatioU128.new_one (n : ℕ) : RatioU128.new n 1 = some ⟨n, 1⟩ := by
  rw [RatioU128.new, if_neg (by omega)]
  simp [Nat.gcd_one_right]

theorem RatioU128.new_coprime {n d : ℕ} {r : RatioU128}
    (h : RatioU128.new n d = some r) : Nat.Coprime r.numer r.denom := by
  rw [RatioU128.new] at h
  by_cases hd : d = 0
  · rw [if_pos hd] at h
    exact absurd h (by simp)
  · rw [if_neg hd] at h
    have hr : r = ⟨n / Nat.gcd n d, d / Nat.gcd n d⟩ := by
      exact (Option.some_inj.mp h).symm
    rw [hr]
    exact Nat.coprime_div_gcd_div_gcd
      (Nat.gcd_pos_of_pos_right n (Nat.pos_of_ne_zero hd))

theorem ratio_div_gcd_cross {n d : ℕ} (hd : d ≠ 0) :
    ((n / Nat.gcd n d : ℕ) : ℚ) * ((d : ℕ) : ℚ) =
      ((n : ℕ) : ℚ) * ((d / Nat.gcd n d : ℕ) : ℚ) := by
  have hg : Nat.gcd n d ≠ 0 := by
    have := Nat.gcd_pos_of_pos_right n (Nat.pos_of_ne_zero hd)
    omega
  have hgq : ((Nat.gcd n d : ℕ) : ℚ) ≠ 0 := by
    exact_mod_cast hg
  rw [Nat.cast_div (Nat.gcd_dvd_left n d) hgq, Nat.cast_div (Nat.gcd_dvd_right n d) hgq]
  field_simp

theorem ratio_div_gcd_real {n d : ℕ} (hd : d ≠ 0) :
    ((n / Nat.gcd n d : ℕ) : ℝ) / ((d / Nat.gcd n d : ℕ) : ℝ) = (n : ℝ) / (d : ℝ) := by
  have hg : Nat.gcd n d ≠ 0 := by
    have := Nat.gcd_pos_of_pos_right n (Nat.pos_of_ne_zero hd)
    omega
  have hgr : ((Nat.gcd n d : ℕ) : ℝ) ≠ 0 := by
    exact_mod_cast hg
  rw [Nat.cast_div (Nat.gcd_dvd_left n d) hgr, Nat.cast_div (Nat.gcd_dvd_right n d) hgr]
  have hdr : (d : ℝ) ≠ 0 := by
    exact_mod_cast hd
  rw [div_div_div_cancel_right₀]
  exact hgr

theorem pitchFromChars_ratio_inv {s : List Char} {r : RatioU128}
    (h : pitchFromChars s = .ok (.Ratio r)) :
    ∃ n d, RatioU128.new n d = some r := by
  simp only [pitchFromChars] at h
  repeat' split at h
  all_goals first
    | (rename_i heq
       simp only [RResult.ok.injEq, Pitch.Ratio.injEq] at h
       exact ⟨_, _, by rw [heq, h]⟩)
    | simp at h

/-! ### Scale-loop lemmas -/

theorem scaleStep_eq (st : ScaleSt) (l : List Char) :
    scaleStep st l =
      if decomment l = [] then .ok st else scaleStepNE st (decomment l) := rfl

theorem scaleLoop_filter : ∀ (ls : List (List Char)) (st : ScaleSt),
    scaleLoop st ls = scaleLoopNE st ((ls.map decomment).filter (fun l => !l.isEmpty))
  | [], st => rfl
  | l :: ls, st => by
    rw [scaleLoop, scaleStep_eq]
    by_cases hd : decomment l = []
    · rw [if_pos hd]
      rw [List.map_cons, List.filter_cons, hd]
      simp only [List.isEmpty_nil, Bool.not_true, Bool.false_eq_true, if_false]
      exact scaleLoop_filter ls st
    · rw [if_neg hd]
      rw [List.map_cons, List.filter_cons]
      have hne : (decomment l).isEmpty = false := by
        cases hdl : decomment l with
        | nil => exact absurd hdl hd
        | cons a as => rfl
      rw [hne]
      simp only [Bool.not_false, if_pos]
      rw [scaleLoopNE]
      cases hstep : scaleStepNE st (decomment l) with
      | ok st2 => exact scaleLoop_filter ls st2
      | err e => rfl
      | panic => rfl

theorem scaleLoopNE_name {st : ScaleSt} (h : st.name = none)
    (n : List Char) (rest : List (List Char)) :
    scaleLoopNE st (n :: rest) = scaleLoopNE { st with name := some n } rest := by
  rw [scaleLoopNE, scaleStepNE, if_pos h]

theorem scaleLoopNE_count (nm : List Char) (acc : List Pitch)
    (c : List Char) (rest : List (List Char)) :
    scaleLoopNE ⟨some nm, none, acc⟩ (c :: rest) =
      match parseUsize (wsRemoveAll c) with
      | some k => scaleLoopNE ⟨some nm, some k, acc⟩ rest
      | none => .err .ParseInt := by
  rw [scaleLoopNE, scaleStepNE]
  simp only [if_neg (by simp : ¬(some nm = (none : Option (List Char)))), if_pos rfl]
  cases hk : parseUsize (wsRemoveAll c) with
  | some k => rfl
  | none => rfl

theorem scaleLoopNE_pitches : ∀ (ls : List (List Char)) (nm : List Char)
    (k : ℕ) (acc : List Pitch),
    scaleLoopNE ⟨some nm, some k, acc⟩ ls =
      match pitchListParse (ls.map wsRemoveAll) with
      | .ok ps => .ok ⟨some nm, some k, acc ++ ps⟩
      | .err e => .err e
      | .panic => .panic
  | [], nm, k, acc => by simp [scaleLoopNE, pitchListParse]
  | l :: ls, nm, k, acc => by
    rw [scaleLoopNE, scaleStepNE]
    simp only [if_neg (by simp : ¬(some nm = (none : Option (List Char)))),
      if_neg (by simp : ¬(some k = (none : Option ℕ)))]
    rw [List.map_cons, pitchListParse]
    cases hp : pitchFromChars (wsRemoveAll l) with
    | ok p =>
      simp only []
      rw [scaleLoopNE_pitches ls nm k (acc ++ [p])]
      cases hrest : pitchListParse (ls.map wsRemoveAll) with
      | ok ps => simp
      | err e => rfl
      | panic => rfl
    | err e => rfl
    | panic => rfl

theorem from_str_eq_spec (s : String) : Scale.from_str s = specScaleParse s := by
  rw [Scale.from_str, scaleFromChars, scaleLoop_filter, specScaleParse]
  rw [show ((rustLines s.toList).map decomment).filter (fun l => !l.isEmpty) =
    filteredLines s from rfl]
  cases hf : filteredLines s with
  | nil => rfl
  | cons n rest =>
    cases rest with
    | nil =>
      rw [scaleLoopNE_name rfl]
      rfl
    | cons c ps =>
      rw [scaleLoopNE_name rfl]
      rw [show ({ name := some n, pitch_count := none, pitches := [] } : ScaleSt) =
        (⟨some n, none, []⟩ : ScaleSt) from rfl]
      rw [scaleLoopNE_count]
      simp only []
      cases hk : parseUsize (wsRemoveAll c) with
      | none => rfl
      | some k =>
        simp only []
        rw [scaleLoopNE_pitches]
        cases hp : pitchListParse (ps.map wsRemoveAll) with
        | ok pitches =>
          simp only [List.nil_append]
        | err e => rfl
        | panic => rfl

theorem scaleStep_panic {st : ScaleSt} {l : List Char}
    (h : scaleStep st l = .panic) :
    pitchFromChars (wsRemoveAll (decomment l)) = .panic := by
  rw [scaleStep_eq] at h
  by_cases hd : decomment l = []
  · rw [if_pos hd] at h
    exact absurd h (by simp)
  · rw [if_neg hd, scaleStepNE] at h
    by_cases hn : st.name = none
    · rw [if_pos hn] at h
      exact absurd h (by simp)
    · rw [if_neg hn] at h
      simp only [] at h
      by_cases hc : st.pitch_count = none
      · rw [if_pos hc] at h
        cases hk : parseUsize (wsRemoveAll (decomment l)) with
        | some k => rw [hk] at h; exact absurd h (by simp)
        | none => rw [hk] at h; exact absurd h (by simp)
      · rw [if_neg hc] at h
        cases hp : pitchFromChars (wsRemoveAll (decomment l)) with
        | ok p => rw [hp] at h; exact absurd h (by simp)
        | err e => rw [hp] at h; exact absurd h (by simp)
        | panic => rfl

theorem scaleLoop_panic : ∀ {ls : List (List Char)} {st : ScaleSt},
    scaleLoop st ls = .panic →
      ∃ l ∈ ls, pitchFromChars (wsRemoveAll (decomment l)) = .panic := by
  intro ls
  induction ls with
  | nil =>
    intro st h
    exact absurd h (by simp [scaleLoop])
  | cons l ls ih =>
    intro st h
    rw [scaleLoop] at h
    cases hstep : scaleStep st l with
    | ok st2 =>
      rw [hstep] at h
      rcases ih h with ⟨l2, hl2, hp⟩
      exact ⟨l2, by simp [hl2], hp⟩
    | err e => rw [hstep] at h; exact absurd h (by simp)
    | panic => exact ⟨l, by simp, scaleStep_panic hstep⟩

/-! ### Round-trip support lemmas -/

theorem pitchFmt_chars (p : Pitch) :
    ∀ c ∈ Pitch.fmt p, c = '-' ∨ c = '.' ∨ c = '/' ∨ isDigitC c = true := by
  intro c hc
  cases p with
  | Cents q =>
    rcases fmtFixed5_mem _ hc with h | h | h
    · exact Or.inl h
    · exact Or.inr (Or.inl h)
    · exact Or.inr (Or.inr (Or.inr h))
  | Ratio r =>
    rcases ratio_text_mem _ hc with h | h
    · exact Or.inr (Or.inr (Or.inl h))
    · exact Or.inr (Or.inr (Or.inr h))

theorem pitchFmt_ne_nil (p : Pitch) : Pitch.fmt p ≠ [] := by
  cases p with
  | Cents q =>
    intro h
    have := dot_mem_fmtFixed5 q
    rw [show Pitch.fmt (.Cents q) = fmtFixed5 q from rfl] at h
    rw [h] at this
    simp at this
  | Ratio r =>
    rw [Pitch.fmt]
    intro h
    rcases List.append_eq_nil.mp h with ⟨-, h2⟩
    simp at h2

theorem pitchFmt_no_nl (p : Pitch) : '\n' ∉ Pitch.fmt p := by
  intro hmem
  rcases pitchFmt_chars p _ hmem with h | h | h | h
  · exact absurd h (by decide)
  · exact absurd h (by decide)
  · exact absurd h (by decide)
  · exact absurd h (by decide)

theorem pitchFmt_no_cr (p : Pitch) : '\r' ∉ Pitch.fmt p := by
  intro hmem
  rcases pitchFmt_chars p _ hmem with h | h | h | h
  · exact absurd h (by decide)
  · exact absurd h (by decide)
  · exact absurd h (by decide)
  · exact absurd h (by decide)

theorem pitchFmt_no_bang (p : Pitch) : '!' ∉ Pitch.fmt p := by
  intro hmem
  rcases pitchFmt_chars p _ hmem with h | h | h | h
  · exact absurd h (by decide)
  · exact absurd h (by decide)
  · exact absurd h (by decide)
  · exact absurd h (by decide)

theorem wsRemoveAll_pitchFmt (p : Pitch) : wsRemoveAll (Pitch.fmt p) = Pitch.fmt p := by
  apply wsRemoveAll_of_none
  intro c hc
  rcases pitchFmt_chars p _ hc with h | h | h | h
  · rw [h]; decide
  · rw [h]; decide
  · rw [h]; decide
  · exact digit_not_ws h

theorem pitchFromChars_fmt {p : Pitch} (hok : PitchOk p) :
    pitchFromChars (Pitch.fmt p) = .ok (reparsePitch p) := by
  cases p with
  | Cents q => exact pitchFromChars_fmt_cents q
  | Ratio r =>
    rcases hok with ⟨hd, hn, hdb⟩
    rw [show Pitch.fmt (.Ratio r) = natReprL r.numer ++ '/' :: natReprL r.denom from rfl]
    rw [pitchFromChars_ratio_text (by omega) hn hdb]
    rfl

theorem pitchListParse_fmt : ∀ {ps : List Pitch}, (∀ p ∈ ps, PitchOk p) →
    pitchListParse ((ps.map Pitch.fmt).map wsRemoveAll) = .ok (ps.map reparsePitch)
  | [], _ => rfl
  | p :: ps, h => by
    rw [List.map_cons, List.map_cons, pitchListParse, wsRemoveAll_pitchFmt]
    rw [pitchFromChars_fmt (h p (by simp))]
    simp only []
    rw [pitchListParse_fmt (fun x hx => h x (by simp [hx]))]
    rfl

theorem rustLines_pitchLines : ∀ ps : List Pitch,
    rustLines (pitchLinesFmt ps) = ps.map Pitch.fmt
  | [] => rfl
  | p :: ps => by
    rw [pitchLinesFmt, rustLines_line (pitchFmt_no_nl p)]
    rw [stripCr_of_not_mem (pitchFmt_no_cr p), rustLines_pitchLines ps]
    rfl

theorem pitchEqv_reparse {p : Pitch} (hok : PitchOk p) : PitchEqv p (reparsePitch p) := by
  cases p with
  | Cents q =>
    show |centsRound q - q| ≤ 1 / 100000
    exact centsRound_close q
  | Ratio r =>
    rcases hok with ⟨hd, -, -⟩
    show (r.numer : ℚ) * ((r.denom / Nat.gcd r.numer r.denom : ℕ) : ℚ) =
      ((r.numer / Nat.gcd r.numer r.denom : ℕ) : ℚ) * (r.denom : ℚ)
    exact (ratio_div_gcd_cross (by omega)).symm

theorem forall₂_reparse : ∀ {ps : List Pitch}, (∀ p ∈ ps, PitchOk p) →
    List.Forall₂ PitchEqv ps (ps.map reparsePitch)
  | [], _ => List.Forall₂.nil
  | p :: ps, h =>
    List.Forall₂.cons (pitchEqv_reparse (h p (by simp)))
      (forall₂_reparse (fun x hx => h x (by simp [hx])))

theorem filteredLines_fmt (sc : Scale) (hne : sc.name ≠ [])
    (hname : ∀ c ∈ sc.name, c ≠ '!' ∧ c ≠ '\n' ∧ c ≠ '\r') :
    filteredLines (Scale.fmt sc) =
      sc.name :: natReprL sc.pitches.length :: sc.pitches.map Pitch.fmt := by
  have hnl : '\n' ∉ sc.name := fun hm => (hname _ hm).2.1 rfl
  have hcr : '\r' ∉ sc.name := fun hm => (hname _ hm).2.2 rfl
  have hbang : '!' ∉ sc.name := fun hm => (hname _ hm).1 rfl
  have hdig : ∀ c ∈ natReprL sc.pitches.length, isDigitC c = true := natReprL_digits _
  have hrl : rustLines (Scale.fmt sc).toList =
      scaleHeader :: sc.name :: natReprL sc.pitches.length :: ['!'] ::
        sc.pitches.map Pitch.fmt := by
    rw [show (Scale.fmt sc).toList = Scale.fmtChars sc from rfl]
    rw [Scale.fmtChars]
    rw [rustLines_line (by decide), stripCr_of_not_mem (by decide)]
    rw [rustLines_line hnl, stripCr_of_not_mem hcr]
    rw [rustLines_line (fun hm => absurd (digit_ne_nl (hdig _ hm)) (by simp)),
      stripCr_of_not_mem (fun hm => absurd (digit_ne_cr (hdig _ hm)) (by simp))]
    rw [show ('!' :: '\n' :: pitchLinesFmt sc.pitches) =
      ['!'] ++ '\n' :: pitchLinesFmt sc.pitches from rfl]
    rw [rustLines_line (by decide), stripCr_of_not_mem (by decide)]
    rw [rustLines_pitchLines]
  rw [filteredLines, hrl]
  rw [List.map_cons, List.map_cons, List.map_cons, List.map_cons]
  rw [show decomment scaleHeader = [] from by decide]
  rw [decomment_of_not_mem hbang]
  rw [decomment_of_not_mem (fun hm => absurd (digit_ne_bang (hdig _ hm)) (by simp))]
  rw [show decomment ['!'] = [] from by decide]
  rw [List.filter_cons, List.filter_cons, List.filter_cons, List.filter_cons]
  simp only [List.isEmpty_nil, Bool.not_true, Bool.false_eq_true, if_false]
  have hnameK : (sc.name.isEmpty = false) := by
    cases hn : sc.name with
    | nil => exact absurd hn hne
    | cons a as => rfl
  have hcntK : ((natReprL sc.pitches.length).isEmpty = false) := by
    cases hn : natReprL sc.pitches.length with
    | nil => exact absurd hn (natReprL_ne_nil _)
    | cons a as => rfl
  rw [hnameK, hcntK]
  simp only [Bool.not_false, if_pos]
  congr 2
  · induction sc.pitches with
    | nil => rfl
    | cons p ps ih =>
      rw [List.map_cons, List.map_cons, List.filter_cons]
      rw [decomment_of_not_mem (pitchFmt_no_bang p)]
      have hk : ((Pitch.fmt p).isEmpty = false) := by
        cases hn : Pitch.fmt p with
        | nil => exact absurd hn (pitchFmt_ne_nil p)
        | cons a as => rfl
      rw [hk]
      simp only [Bool.not_false, if_pos]
      rw [ih]

theorem pitchFromChars_dot {s : List Char}
    (h : containsC (removeSpaces s) '.' = true) :
    pitchFromChars s =
      (match parseF64 (stripCents (removeSpaces s)) with
        | some v => .ok (.Cents v)
        | none => .err .ParseFloat) := by
  simp only [pitchFromChars]
  rw [if_pos h]

theorem pitchLinesFmt_join : ∀ ps : List Pitch,
    pitchLinesFmt ps = (ps.map (fun p => Pitch.fmt p ++ ['\n'])).flatten
  | [] => rfl
  | p :: ps => by
    rw [pitchLinesFmt, pitchLinesFmt_join ps, List.map_cons, List.flatten_cons,
      List.append_assoc]
    rfl

theorem pitchLinesFmt_getLast : ∀ (ps : List Pitch) (l : List Char),
    (l ++ '\n' :: pitchLinesFmt ps).getLast? = some '\n'
  | [], l => by
    rw [pitchLinesFmt]
    exact List.getLast?_concat l
  | p :: ps, l => by
    rw [pitchLinesFmt]
    rw [show l ++ '\n' :: (Pitch.fmt p ++ '\n' :: pitchLinesFmt ps) =
      (l ++ '\n' :: Pitch.fmt p) ++ '\n' :: pitchLinesFmt ps from by
        simp [List.append_assoc]]
    exact pitchLinesFmt_getLast ps (l ++ '\n' :: Pitch.fmt p)

/-! ### Claim theorems -/

/-- Claim C1, counterexample: parsing the pitch text `1/0` does not return
a `ParsePitchError` to the caller; it panics inside `Ratio::new` on the
zero denominator. -/
theorem claim_C1_cex : Pitch.from_str "1/0" = .panic := by decide

/-- Claim C1 (amended): pitch parsing returns a value or an error for every
input except exactly the fraction tokens whose denominator text parses to
zero, where the `Ratio` constructor panics instead of surfacing an error
(a `Ratio` with zero denominator is indeed never constructed); scale
parsing can panic only by hitting such a pitch line. -/
theorem claim_C1 :
    (∀ s : String, Pitch.from_str s = .panic ↔ zeroDenomToken s) ∧
    (∀ s : String, Scale.from_str s = .panic →
      ∃ l ∈ rustLines s.toList, pitchFromChars (wsRemoveAll (decomment l)) = .panic) := by
  constructor
  · intro s
    rw [Pitch.from_str, zeroDenomToken]
    simp only [pitchFromChars]
    by_cases hdot : containsC (removeSpaces s.toList) '.' = true
    · rw [if_pos hdot]
      constructor
      · intro h
        cases hp : parseF64 (stripCents (removeSpaces s.toList)) with
        | some v => rw [hp] at h; exact absurd h (by simp)
        | none => rw [hp] at h; exact absurd h (by simp)
      · rintro ⟨hdot2, -⟩
        rw [hdot] at hdot2
        exact absurd hdot2 (by simp)
    · rw [if_neg hdot]
      by_cases hsl : containsC (removeSpaces s.toList) '/' = true
      · rw [if_pos hsl]
        rcases splitOnceC_isSome (containsC_eq_true.mp hsl) with ⟨ab, hab⟩
        obtain ⟨pa, pb⟩ := ab
        rw [hab]
        simp only []
        constructor
        · intro h
          cases hn : parseU128 pa with
          | none => rw [hn] at h; exact absurd h (by simp)
          | some n =>
            rw [hn] at h
            simp only [] at h
            cases hdv : parseU128 pb with
            | none => rw [hdv] at h; exact absurd h (by simp)
            | some dv =>
              rw [hdv] at h
              simp only [] at h
              by_cases hz : dv = 0
              · subst hz
                refine ⟨(by simpa using hdot), pa, pb, rfl, ?_, hdv⟩
                rw [hn]
                rfl
              · rw [RatioU128.new_eq hz] at h
                exact absurd h (by simp)
        · rintro ⟨-, a, b, hab2, hsome, hzero⟩
          simp only [Option.some_inj, Prod.mk.injEq] at hab2
          obtain ⟨rfl, rfl⟩ := hab2
          rcases Option.isSome_iff_exists.mp hsome with ⟨n, hn⟩
          rw [hn]
          simp only []
          rw [hzero]
          simp only []
          rw [RatioU128.new, if_pos rfl]
      · rw [if_neg hsl]
        constructor
        · intro h
          cases hn : parseU128 (removeSpaces s.toList) with
          | none => rw [hn] at h; exact absurd h (by simp)
          | some n =>
            rw [hn] at h
            simp only [] at h
            rw [RatioU128.new_one] at h
            exact absurd h (by simp)
        · rintro ⟨-, a, b, hab, -, -⟩
          have hns : '/' ∉ removeSpaces s.toList :=
            containsC_eq_false.mp (by simpa using hsl)
          rw [splitOnceC_of_not_mem hns] at hab
          exact absurd hab (by simp)
  · intro s h
    rw [Scale.from_str, scaleFromChars] at h
    cases hl : scaleLoop ⟨none, none, []⟩ (rustLines s.toList) with
    | err e => rw [hl] at h; exact absurd h (by simp)
    | panic => exact scaleLoop_panic hl
    | ok st =>
      rw [hl] at h
      simp only [] at h
      cases hn : st.name with
      | none => rw [hn] at h; exact absurd h (by simp)
      | some nm =>
        rw [hn] at h
        simp only [] at h
        cases hc : st.pitch_count with
        | none => rw [hc] at h; exact absurd h (by simp)
        | some k =>
          rw [hc] at h
          simp only [] at h
          by_cases hlen : st.pitches.length ≠ k
          · rw [if_pos hlen] at h; exact absurd h (by simp)
          · rw [if_neg hlen] at h; exact absurd h (by simp)

/-- Witness for C1: the scale input `d\n1\n1/0` panics, and the panic is
traced to its `1/0` pitch line. -/
theorem claim_C1_witness :
    Scale.from_str "d\n1\n1/0" = .panic ∧
    ∃ l ∈ rustLines ("d\n1\n1/0" : String).toList,
      pitchFromChars (wsRemoveAll (decomment l)) = .panic :=
  ⟨by decide, claim_C1.2 "d\n1\n1/0" (by decide)⟩

/-- Claim C2: for `d ≠ 0` (in `u128` range), parsing `"{n}/{d}"` succeeds
with exactly the `Ratio::new(n, d)` value, and `to_cents` of the result is
`log2(n/d) * 1200`. -/
theorem claim_C2 (n d : ℕ) (hd : d ≠ 0) (hn : n < 2 ^ 128) (hdb : d < 2 ^ 128) :
    ∃ r, RatioU128.new n d = some r ∧
      Pitch.from_str (natRepr n ++ "/" ++ natRepr d) = .ok (.Ratio r) ∧
      Pitch.to_cents (.Ratio r) = Real.logb 2 ((n : ℝ) / (d : ℝ)) * 1200 := by
  refine ⟨⟨n / Nat.gcd n d, d / Nat.gcd n d⟩, RatioU128.new_eq hd, ?_, ?_⟩
  · rw [Pitch.from_str]
    have hlist : (natRepr n ++ "/" ++ natRepr d).toList =
        natReprL n ++ '/' :: natReprL d := by
      show (natReprL n ++ ['/']) ++ natReprL d = _
      rw [List.append_assoc]
      rfl
    rw [hlist]
    exact pitchFromChars_ratio_text hd hn hdb
  · show Real.logb 2 (((n / Nat.gcd n d : ℕ) : ℝ) / ((d / Nat.gcd n d : ℕ) : ℝ)) * 1200 = _
    rw [ratio_div_gcd_real hd]

/-- Witness for C2 at `n = 3`, `d = 2`. -/
theorem claim_C2_witness :
    ∃ r, RatioU128.new 3 2 = some r ∧
      Pitch.from_str (natRepr 3 ++ "/" ++ natRepr 2) = .ok (.Ratio r) ∧
      Pitch.to_cents (.Ratio r) = Real.logb 2 ((3 : ℝ) / (2 : ℝ)) * 1200 :=
  claim_C2 3 2 (by decide) (by decide) (by decide)

/-- Claim C3, counterexample: `4/2`, parsed and formatted back, is `2/1`
rather than `4/2` — the parser reduces the fraction at construction. -/
theorem claim_C3_cex :
    Pitch.from_str "4/2" = .ok (.Ratio ⟨2, 1⟩) ∧
    Pitch.fmtStr (.Ratio ⟨2, 1⟩) = "2/1" ∧
    Pitch.fmtStr (.Ratio ⟨2, 1⟩) ≠ "4/2" :=
  ⟨by decide, by decide, by decide⟩

/-- Claim C3 (amended): `Display` for a ratio prints the stored fields
without reducing at format time; but since parsing reduces at
construction, `"4/2"` round-trips to the text `"2/1"`, while `"2/1"`
round-trips unchanged. -/
theorem claim_C3 :
    (∀ r : RatioU128,
      Pitch.fmtStr (.Ratio r) = natRepr r.numer ++ "/" ++ natRepr r.denom) ∧
    (Pitch.from_str "4/2" = .ok (.Ratio ⟨2, 1⟩) ∧
      Pitch.fmtStr (.Ratio ⟨2, 1⟩) = "2/1") ∧
    (Pitch.from_str "2/1" = .ok (.Ratio ⟨2, 1⟩) ∧
      Pitch.fmtStr (.Ratio ⟨2, 1⟩) = "2/1") := by
  refine ⟨?_, ⟨by decide, by decide⟩, ⟨by decide, by decide⟩⟩
  intro r
  show String.mk (natReprL r.numer ++ '/' :: natReprL r.denom) =
    String.mk ((natReprL r.numer ++ ['/']) ++ natReprL r.denom)
  rw [List.append_assoc]
  rfl

/-- Claim C4, counterexample: the scale with empty name and no pitches
formats to text whose parse fails (`MissingNoteCount`): the empty name
line is skipped and the `0` count line is taken as the name, so the
format→parse round-trip does not succeed for every scale. -/
theorem claim_C4_cex :
    Scale.from_str (Scale.fmt ⟨[], []⟩) = .err .MissingNoteCount := by decide

/-- Claim C4 (amended): for every scale whose name is nonempty and free of
`!`, `\n` and `\r`, whose pitch count fits `usize`, and whose ratio
pitches are in `u128` range with nonzero denominators, parsing
`Format(Scale)` succeeds and yields the same name, the same pitch count,
and numerically equivalent pitches (cents to 5-decimal precision, ratios
exactly). -/
theorem claim_C4 (sc : Scale) (hne : sc.name ≠ [])
    (hname : ∀ c ∈ sc.name, c ≠ '!' ∧ c ≠ '\n' ∧ c ≠ '\r')
    (hlen : sc.pitches.length < 2 ^ 64)
    (hok : ∀ p ∈ sc.pitches, PitchOk p) :
    ∃ sc2, Scale.from_str (Scale.fmt sc) = .ok sc2 ∧ sc2.name = sc.name ∧
      sc2.pitches.length = sc.pitches.length ∧
      List.Forall₂ PitchEqv sc.pitches sc2.pitches := by
  refine ⟨⟨sc.name, sc.pitches.map reparsePitch⟩, ?_, rfl, by simp, forall₂_reparse hok⟩
  rw [from_str_eq_spec, specScaleParse, filteredLines_fmt sc hne hname]
  simp only []
  rw [wsRemoveAll_of_none (fun c hc => digit_not_ws (natReprL_digits _ c hc))]
  rw [parseUsize_natReprL hlen]
  simp only []
  rw [pitchListParse_fmt hok]
  simp only []
  rw [if_neg (by simp)]

/-- Witness for C4 at a concrete two-pitch ratio scale. -/
theorem claim_C4_witness :
    (∀ p ∈ ([Pitch.Ratio ⟨3, 2⟩, Pitch.Ratio ⟨2, 1⟩] : List Pitch), PitchOk p) ∧
    ∃ sc2, Scale.from_str
        (Scale.fmt ⟨"major".toList, [Pitch.Ratio ⟨3, 2⟩, Pitch.Ratio ⟨2, 1⟩]⟩) =
          .ok sc2 ∧
      sc2.name = ("major".toList : List Char) ∧
      sc2.pitches.length =
        ([Pitch.Ratio ⟨3, 2⟩, Pitch.Ratio ⟨2, 1⟩] : List Pitch).length ∧
      List.Forall₂ PitchEqv [Pitch.Ratio ⟨3, 2⟩, Pitch.Ratio ⟨2, 1⟩] sc2.pitches :=
  ⟨by decide, claim_C4 ⟨"major".toList, [Pitch.Ratio ⟨3, 2⟩, Pitch.Ratio ⟨2, 1⟩]⟩
    (by decide) (by decide) (by decide) (by decide)⟩

/-- Claim C5: scale parsing is a single pass that truncates each line at
`!`, skips empty results, takes the first survivor as the name verbatim,
the second (whitespace removed) as the declared count, and each later
survivor (whitespace removed) as a pitch appended in input order — as
captured by `specScaleParse`, stated from the spec's words; consequently
the pitch line `3/2 ! perfect fifth` parses like `3/2`. -/
theorem claim_C5 :
    (∀ s : String, Scale.from_str s = specScaleParse s) ∧
    Scale.from_str "n\n1\n3/2 ! perfect fifth" = Scale.from_str "n\n1\n3/2" :=
  ⟨from_str_eq_spec, by decide⟩

/-- Claim C6: `MissingDescription` when no surviving line exists,
`MissingNoteCount` when only a name line exists, and — only after all
lines are consumed — `WrongPitchCount(actual)` when the parsed pitch-line
count differs from the declared count (e.g. count `3` with 2 pitch lines
gives `WrongPitchCount 2`). -/
theorem claim_C6 :
    (∀ s : String, filteredLines s = [] →
      Scale.from_str s = .err .MissingDescription) ∧
    (∀ (s : String) (n : List Char), filteredLines s = [n] →
      Scale.from_str s = .err .MissingNoteCount) ∧
    (∀ (s : String) (n c : List Char) (ps : List (List Char)) (k : ℕ)
      (pl : List Pitch), filteredLines s = n :: c :: ps →
      parseUsize (wsRemoveAll c) = some k →
      pitchListParse (ps.map wsRemoveAll) = .ok pl → pl.length ≠ k →
      Scale.from_str s = .err (.WrongPitchCount pl.length)) ∧
    Scale.from_str "d\n3\n3/2\n2/1" = .err (.WrongPitchCount 2) := by
  refine ⟨?_, ?_, ?_, by decide⟩
  · intro s h
    rw [from_str_eq_spec, specScaleParse, h]
  · intro s n h
    rw [from_str_eq_spec, specScaleParse, h]
  · intro s n c ps k pl hf hk hp hne
    rw [from_str_eq_spec, specScaleParse, hf]
    simp only []
    rw [hk]
    simp only []
    rw [hp]
    simp only []
    rw [if_pos hne]

/-- Witness for C6: the mismatch case at declared count 3 with two parsed
pitch lines. -/
theorem claim_C6_witness :
    filteredLines "d\n3\n3/2\n2/1" =
      [['d'], ['3'], ['3', '/', '2'], ['2', '/', '1']] ∧
    Scale.from_str "d\n3\n3/2\n2/1" = .err (.WrongPitchCount 2) :=
  ⟨by decide, claim_C6.2.2.1 "d\n3\n3/2\n2/1" ['d'] ['3']
    [['3', '/', '2'], ['2', '/', '1']] 3 [Pitch.Ratio ⟨3, 2⟩, Pitch.Ratio ⟨2, 1⟩]
    (by decide) (by decide) (by decide) (by decide)⟩

/-- Claim C7: in pitch parsing (after space removal) a decimal point takes
precedence over `/`: any dot-containing token is handled by the cents
branch — strip `cents`, float-parse, yield `Cents(value)` or a
float-parse error — even when it also contains `/` (`3.5/2` is a
`ParseFloat` error, not a ratio; `200.cents` is `Cents 200`). -/
theorem claim_C7 :
    (∀ s : String, containsC (removeSpaces s.toList) '.' = true →
      Pitch.from_str s =
        (match parseF64 (stripCents (removeSpaces s.toList)) with
          | some v => .ok (.Cents v)
          | none => .err .ParseFloat)) ∧
    Pitch.from_str "3.5/2" = .err .ParseFloat ∧
    Pitch.from_str "200.cents" = .ok (.Cents 200) := by
  refine ⟨fun s h => pitchFromChars_dot h, by decide, ?_⟩
  rw [Pitch.from_str, pitchFromChars_dot (by decide)]
  rw [show stripCents (removeSpaces ("200.cents" : String).toList) =
    ['2', '0', '0', '.'] from by decide]
  rw [show (['2', '0', '0', '.'] : List Char) = ['2', '0', '0'] ++ '.' :: [] from rfl]
  rw [parseF64_digits_dot (by decide) (by decide) (by simp)]
  simp only []
  congr 1
  congr 1
  rw [show digitsToNat ['2', '0', '0'] = 200 from by decide,
    show digitsToNat ([] : List Char) = 0 from rfl]
  norm_num

/-- Witness for C7 at the dot-and-slash token `3.5/2`. -/
theorem claim_C7_witness :
    containsC (removeSpaces ("3.5/2" : String).toList) '.' = true ∧
    Pitch.from_str "3.5/2" =
      (match parseF64 (stripCents (removeSpaces ("3.5/2" : String).toList)) with
        | some v => .ok (.Cents v)
        | none => .err .ParseFloat) :=
  ⟨by decide, claim_C7.1 "3.5/2" (by decide)⟩

/-- Claim C8: `Format(Scale)` emits, in order, the fixed generated-comment
line, the name line, the pitch count (decimal digits, no leading zero), a
bare `!` line, then one line per pitch in sequence order (cents with
exactly 5 fractional digits, ratios as `{n}/{d}`), each line — the last
included — terminated by a newline. -/
theorem claim_C8 (sc : Scale) :
    Scale.fmtChars sc =
      "! Generated scale:".toList ++ ['\n'] ++ sc.name ++ ['\n'] ++
        natReprL sc.pitches.length ++ ['\n'] ++ ['!'] ++ ['\n'] ++
        (sc.pitches.map (fun p => Pitch.fmt p ++ ['\n'])).flatten ∧
    (∀ c ∈ natReprL sc.pitches.length, isDigitC c = true) ∧
    (sc.pitches.length ≠ 0 → (natReprL sc.pitches.length).head? ≠ some '0') ∧
    (∀ q : ℚ, ∃ a b, fmtFixed5 q = a ++ '.' :: b ∧ '.' ∉ a ∧ b.length = 5 ∧
      (∀ c ∈ b, isDigitC c = true)) ∧
    (∀ r : RatioU128,
      Pitch.fmt (.Ratio r) = natReprL r.numer ++ ['/'] ++ natReprL r.denom) ∧
    (Scale.fmtChars sc).getLast? = some '\n' := by
  refine ⟨?_, natReprL_digits _, fun h => natReprL_head h, ?_, ?_, ?_⟩
  · rw [Scale.fmtChars, pitchLinesFmt_join sc.pitches]
    simp [scaleHeader, List.append_assoc]
  · intro q
    refine ⟨(if q < 0 then ['-'] else []) ++ natReprL (round5 |q| / 100000),
      pad5 (natReprL (round5 |q| % 100000)), ?_, ?_, ?_,
      pad5_digits (natReprL_digits _)⟩
    · rw [fmtFixed5_eq]
    · intro hmem
      rcases List.mem_append.mp hmem with h1 | h2
      · by_cases hq : q < 0
        · rw [if_pos hq] at h1
          exact absurd (List.mem_singleton.mp h1) (by decide)
        · rw [if_neg hq] at h1
          simp at h1
      · exact absurd (natReprL_digits _ _ h2) (by decide)
    · exact pad5_length (natReprL_length (by norm_num) (Nat.mod_lt _ (by norm_num)))
  · intro r
    show natReprL r.numer ++ '/' :: natReprL r.denom = _
    rw [List.append_assoc]
    rfl
  · have hshape : Scale.fmtChars sc =
        (scaleHeader ++ '\n' :: (sc.name ++ '\n' ::
          (natReprL sc.pitches.length ++ ['\n', '!']))) ++
          '\n' :: pitchLinesFmt sc.pitches := by
      rw [Scale.fmtChars]
      simp [List.append_assoc]
    rw [hshape]
    exact pitchLinesFmt_getLast sc.pitches _

/-- Witness for C8 at a one-pitch scale and pitch count 1. -/
theorem claim_C8_witness :
    (⟨"x".toList, [Pitch.Ratio ⟨3, 2⟩]⟩ : Scale).pitches.length ≠ 0 ∧
    (natReprL (⟨"x".toList, [Pitch.Ratio ⟨3, 2⟩]⟩ : Scale).pitches.length).head? ≠
      some '0' ∧
    (Scale.fmtChars ⟨"x".toList, [Pitch.Ratio ⟨3, 2⟩]⟩).getLast? = some '\n' :=
  ⟨by decide, (claim_C8 _).2.2.1 (by decide), (claim_C8 _).2.2.2.2.2⟩

/-- Claim C9: every ratio pitch produced by parsing is stored in lowest
terms — the constructor reduces at creation, so numerator and denominator
are coprime; in particular `4/2` is stored as `2/1`. -/
theorem claim_C9 :
    (∀ (s : String) (r : RatioU128), Pitch.from_str s = .ok (.Ratio r) →
      Nat.Coprime r.numer r.denom) ∧
    Pitch.from_str "4/2" = .ok (.Ratio ⟨2, 1⟩) := by
  refine ⟨?_, by decide⟩
  intro s r h
  rw [Pitch.from_str] at h
  rcases pitchFromChars_ratio_inv h with ⟨n, d, hnd⟩
  exact RatioU128.new_coprime hnd

/-- Witness for C9 at the input `4/2`. -/
theorem claim_C9_witness :
    Pitch.from_str "4/2" = .ok (.Ratio ⟨2, 1⟩) ∧ Nat.Coprime 2 1 :=
  ⟨by decide, claim_C9.1 "4/2" ⟨2, 1⟩ (by decide)⟩

/-- Claim C10: a whitespace-only line (without `!`) is not empty after
de-commenting and is therefore not skipped: when it is the first surviving
line and the parse succeeds, it becomes the scale's name — which may thus
consist entirely of whitespace. -/
theorem claim_C10 :
    (∀ (s : String) (w : List Char) (ls : List (List Char)) (sc : Scale),
      filteredLines s = w :: ls → (∀ c ∈ w, isRustWhitespace c = true) →
      Scale.from_str s = .ok sc → sc.name = w) ∧
    Scale.from_str " \n2\n3/2\n2/1" =
      .ok ⟨[' '], [.Ratio ⟨3, 2⟩, .Ratio ⟨2, 1⟩]⟩ := by
  refine ⟨?_, by decide⟩
  intro s w ls sc hf hw h
  rw [from_str_eq_spec, specScaleParse, hf] at h
  cases ls with
  | nil => simp at h
  | cons c ps =>
    simp only [] at h
    cases hk : parseUsize (wsRemoveAll c) with
    | none => rw [hk] at h; simp at h
    | some k =>
      rw [hk] at h
      simp only [] at h
      cases hp : pitchListParse (ps.map wsRemoveAll) with
      | ok pitches =>
        rw [hp] at h
        simp only [] at h
        by_cases hlen : pitches.length ≠ k
        · rw [if_pos hlen] at h
          simp at h
        · rw [if_neg hlen] at h
          simp only [RResult.ok.injEq] at h
          rw [← h]
      | err e => rw [hp] at h; simp at h
      | panic => rw [hp] at h; simp at h

/-- Witness for C10 at a scale whose name line is a single space. -/
theorem claim_C10_witness :
    filteredLines " \n2\n3/2\n2/1" =
      [[' '], ['2'], ['3', '/', '2'], ['2', '/', '1']] ∧
    (⟨[' '], [.Ratio ⟨3, 2⟩, .Ratio ⟨2, 1⟩]⟩ : Scale).name = [' '] :=
  ⟨by decide, claim_C10.1 " \n2\n3/2\n2/1" [' ']
    [['2'], ['3', '/', '2'], ['2', '/', '1']]
    ⟨[' '], [.Ratio ⟨3, 2⟩, .Ratio ⟨2, 1⟩]⟩ (by decide) (by decide) (by decide)⟩

end SerdeScala
